import Mathlib

/-!
Shallow embedding of the bounded concurrent request queue from
`src/06-boring-proven-tech.ts` (class `BoringTechChoices`): the fields
`requestQueue`, `processing`, `MAX_CONCURRENT`, the enqueue method
`analyzeCrypto`, and the drain loop `processQueue`.

The downstream call `callOpenAI` is fallible (it throws on a non-ok HTTP
response); we model it as an oracle `String → Except DownstreamError String`.
JavaScript's event loop only interleaves at `await` points; we model the
system as a small-step semantics whose events are a `submit` (the body of
`analyzeCrypto` plus the synchronous prefix of `processQueue`), one loop
iteration of `processQueue` (`runBatch`: splice a batch off the head of the
queue, dispatch it, and settle every item), and the loop exit (`finish`:
the queue is observed empty and `processing` is reset).  This step relation
admits a superset of the interleavings the event loop can produce, so
invariants proved over it hold of the real program.

A second, time-aware embedding (`drainTrace`) records the actions of one
drain cycle of `processQueue` in order — batch dispatches and the fixed
1000 ms inter-batch delays — together with the requests that arrive at each
suspension point.  A third embedding (`processQueueE`) runs the same loop
inside the `Except` monad, mirroring the `try`/`catch` around each item, to
state that the scheduler itself never propagates an exception.
-/

namespace BoringTech

/-- Error raised by the Downstream Caller (`callOpenAI` throws
`Error` on a non-ok response; network faults reject the fetch). -/
structure DownstreamError where
  message : String
deriving DecidableEq

/-- Outcome of one request's single-use completion handle: the promise
created in `analyzeCrypto` is either resolved with a result string or
rejected with an error. -/
inductive Settlement where
  | fulfilled (value : String)
  | rejected (error : DownstreamError)
deriving DecidableEq

/-- One queued request, as pushed by `analyzeCrypto`:
`this.requestQueue.push(\x7b userId, query, resolve, reject \x7d)`.
The `resolve`/`reject` pair (the settlement handle) is represented by a
unique `id` assigned at submission time; settlements are recorded against
that id. -/
structure Req where
  id : Nat
  userId : String
  query : String
deriving DecidableEq

/-- Semantics of `callOpenAI`: for a given query it either returns a result
string or throws a `DownstreamError`. -/
def Oracle : Type := String → Except DownstreamError String

/-- The per-item body of the batch dispatch in `processQueue`:
`try \x7b request.resolve(await this.callOpenAI(request.query)) \x7d
catch (error) \x7b request.reject(error) \x7d`. -/
def settleOne (o : Oracle) (r : Req) : Settlement :=
  match o r.query with
  | .ok v => .fulfilled v
  | .error e => .rejected e

/-- `private readonly MAX_CONCURRENT = 5`. -/
def MAX_CONCURRENT : Nat := 5

/-- State of one `BoringTechChoices` queue instance, plus the history
needed to state the claims: `batches` records every dispatched batch in
dispatch order and `settled` every settlement in the order it was
performed.  `nextId` is the ghost counter assigning submission ids. -/
structure QState where
  pending : List Req
  processing : Bool
  batches : List (List Req)
  settled : List (Nat × Settlement)
  nextId : Nat
deriving DecidableEq

/-- The queue starts empty and idle. -/
def initState : QState :=
  { pending := [], processing := false, batches := [], settled := [], nextId := 0 }

/-- Events of the small-step semantics: a call to `analyzeCrypto`, one
iteration of the `while` loop of `processQueue`, and the loop exit. -/
inductive Event where
  | submit (userId query : String)
  | runBatch
  | finish
deriving DecidableEq

/-- `analyzeCrypto(userId, query)`: push the request onto `requestQueue`
and call `processQueue()`, whose synchronous prefix returns at once when
`this.processing` is already true and otherwise sets `this.processing =
true` (the loop body is then driven by `runBatch`/`finish` events). -/
def analyzeCrypto (σ : QState) (userId query : String) : QState :=
  let σ1 := { σ with
    pending := σ.pending ++ [⟨σ.nextId, userId, query⟩],
    nextId := σ.nextId + 1 }
  if σ1.processing then σ1 else { σ1 with processing := true }

/-- One step. `runBatch` is one iteration of
`while (this.requestQueue.length > 0)`: splice off the first
`k = MAX_CONCURRENT` requests, dispatch them, and await settlement of every
item (`Promise.allSettled`).  `finish` is the loop exit: the queue is
observed empty and `this.processing = false` is executed.  Steps whose
guard fails leave the state unchanged. -/
def step (k : Nat) (o : Oracle) (σ : QState) : Event → QState
  | .submit userId query => analyzeCrypto σ userId query
  | .runBatch =>
      if σ.processing ∧ ¬ σ.pending.isEmpty then
        let batch := σ.pending.take k
        { σ with
          pending := σ.pending.drop k,
          batches := σ.batches ++ [batch],
          settled := σ.settled ++ batch.map (fun r => (r.id, settleOne o r)) }
      else σ
  | .finish =>
      if σ.processing ∧ σ.pending.isEmpty then { σ with processing := false } else σ

/-- Run a sequence of events from a state. -/
def run (k : Nat) (o : Oracle) (σ : QState) (es : List Event) : QState :=
  es.foldl (step k o) σ

/-- The requests created by the `submit` events of a trace, in submission
order, with ids assigned from `startId` upward. -/
def submittedReqs (startId : Nat) : List Event → List Req
  | [] => []
  | .submit userId query :: es => ⟨startId, userId, query⟩ :: submittedReqs (startId + 1) es
  | .runBatch :: es => submittedReqs startId es
  | .finish :: es => submittedReqs startId es

/-- Observable actions of one drain cycle of `processQueue`, in order:
dispatching one batch (including awaiting settlement of all its items) and
the fixed inter-batch pause `setTimeout(resolve, 1000)`. -/
inductive Act where
  | dispatch (batch : List Req)
  | delay (ms : Nat)
deriving DecidableEq

/-- One drain cycle of `processQueue`, as the ordered list of its actions.
`pend` is `this.requestQueue` when the `while` loop tests its condition;
`arrivals` lists, for each loop iteration, the requests appended by
`analyzeCrypto` calls while that iteration is suspended (awaiting the
batch's settlement or sleeping).  Each iteration splices off
`take k`, dispatches it, absorbs the iteration's arrivals, and sleeps
1000 ms only when `this.requestQueue.length > 0` still holds. -/
def drainTrace (k : Nat) (hk : 0 < k) : List Req → List (List Req) → List Act
  | [], _ => []
  | p :: ps, arrivals =>
      let rest := (p :: ps).drop k ++ arrivals.headD []
      Act.dispatch ((p :: ps).take k) ::
        (if rest.isEmpty then [] else Act.delay 1000 :: drainTrace k hk rest arrivals.tail)
termination_by pend arrivals => (arrivals.length, pend.length)
decreasing_by
  cases arrivals with
  | nil =>
      apply Prod.Lex.right
      simp only [List.headD, List.append_nil, List.length_drop, List.length_cons]
      omega
  | cons a as => exact Prod.Lex.left _ _ (by simp)

/-- The batches dispatched by a trace of actions, in order. -/
def batchesOf (t : List Act) : List (List Req) :=
  t.filterMap fun a => match a with
    | .dispatch b => some b
    | .delay _ => none

/-- The `while` loop of `processQueue` with an explicit iteration budget
and no arrivals: each iteration splices `take k` off the head of the
queue; returns the dispatched batches and the queue left when the budget
runs out (so a leftover of `[]` means the loop has already exited). -/
def drainSteps (k : Nat) : Nat → List Req → List (List Req) × List Req
  | 0, pend => ([], pend)
  | _ + 1, [] => ([], [])
  | fuel + 1, p :: ps =>
      let out := drainSteps k fuel ((p :: ps).drop k)
      ((p :: ps).take k :: out.1, out.2)

/-- The per-item dispatch of `processQueue`, with its exception flow made
explicit in the `Except` monad: `await this.callOpenAI(request.query)` may
throw, the surrounding `try` resolves the request's promise on success, and
the `catch (error)` clause rejects it — so the item handler itself
completes normally either way. -/
def processItem (o : Oracle) (r : Req) : Except DownstreamError (Nat × Settlement) :=
  tryCatch
    (do
      let result ← o r.query
      pure (r.id, Settlement.fulfilled result))
    (fun error => pure (r.id, Settlement.rejected error))

/-- `Promise.allSettled(batch.map(...))`: run the item handler on every
request of the batch and collect the settlements in batch order. -/
def processBatch (o : Oracle) : List Req → Except DownstreamError (List (Nat × Settlement))
  | [] => pure []
  | r :: rs => do
      let s ← processItem o r
      let ss ← processBatch o rs
      pure (s :: ss)

/-- The `while` loop of `processQueue` in the `Except` monad, returning
every settlement it performs in order; an `Except.error` outcome would mean
the scheduler let an exception escape. -/
def processQueueE (k : Nat) (hk : 0 < k) (o : Oracle) :
    List Req → List (List Req) → Except DownstreamError (List (Nat × Settlement))
  | [], _ => pure []
  | p :: ps, arrivals => do
      let settledHere ← processBatch o ((p :: ps).take k)
      let rest := (p :: ps).drop k ++ arrivals.headD []
      if rest.isEmpty then
        pure settledHere
      else do
        let settledLater ← processQueueE k hk o rest arrivals.tail
        pure (settledHere ++ settledLater)
termination_by pend arrivals => (arrivals.length, pend.length)
decreasing_by
  cases arrivals with
  | nil =>
      apply Prod.Lex.right
      simp only [List.headD, List.append_nil, List.length_drop, List.length_cons]
      omega
  | cons a as => exact Prod.Lex.left _ _ (by simp)

/-! Basic facts about single steps. -/

theorem analyzeCrypto_pending (σ : QState) (u q : String) :
    (analyzeCrypto σ u q).pending = σ.pending ++ [⟨σ.nextId, u, q⟩] := by
  simp only [analyzeCrypto]
  split <;> rfl

theorem analyzeCrypto_batches (σ : QState) (u q : String) :
    (analyzeCrypto σ u q).batches = σ.batches := by
  simp only [analyzeCrypto]
  split <;> rfl

theorem analyzeCrypto_settled (σ : QState) (u q : String) :
    (analyzeCrypto σ u q).settled = σ.settled := by
  simp only [analyzeCrypto]
  split <;> rfl

theorem analyzeCrypto_nextId (σ : QState) (u q : String) :
    (analyzeCrypto σ u q).nextId = σ.nextId + 1 := by
  simp only [analyzeCrypto]
  split <;> rfl

theorem analyzeCrypto_processing (σ : QState) (u q : String) :
    (analyzeCrypto σ u q).processing = true := by
  simp only [analyzeCrypto]
  split
  · assumption
  · rfl

theorem run_cons (k : Nat) (o : Oracle) (σ : QState) (e : Event) (es : List Event) :
    run k o σ (e :: es) = run k o (step k o σ e) es := rfl

/-- A single step preserves the submitted requests: the dispatched requests
followed by the still-pending ones grow exactly by the newly submitted
request (on `submit`) and are otherwise rearranged from pending into a
batch or left alone. -/
theorem step_flatten_pending (k : Nat) (o : Oracle) (σ : QState) (e : Event) :
    (step k o σ e).batches.flatten ++ (step k o σ e).pending
      = σ.batches.flatten ++ σ.pending ++ submittedReqs σ.nextId [e] := by
  cases e with
  | submit u q =>
      simp [step, analyzeCrypto_pending, analyzeCrypto_batches, submittedReqs,
        List.append_assoc]
  | runBatch =>
      simp only [step, submittedReqs, List.append_nil]
      split
      · simp [List.flatten_append, List.append_assoc, List.take_append_drop]
      · rfl
  | finish =>
      simp only [step, submittedReqs, List.append_nil]
      split <;> rfl

theorem step_nextId (k : Nat) (o : Oracle) (σ : QState) (e : Event) :
    (step k o σ e).nextId = σ.nextId + (submittedReqs σ.nextId [e]).length := by
  cases e with
  | submit u q => simp [step, analyzeCrypto_nextId, submittedReqs]
  | runBatch =>
      simp only [step, submittedReqs, List.length_nil, Nat.add_zero]
      split <;> rfl
  | finish =>
      simp only [step, submittedReqs, List.length_nil, Nat.add_zero]
      split <;> rfl

/-- Conservation over a whole trace: the requests dispatched so far,
followed by the requests still pending, are exactly the initial ones
followed by everything submitted by the trace — in order, nothing lost,
nothing duplicated, nothing re-inserted. -/
theorem run_flatten_pending (k : Nat) (o : Oracle) (es : List Event) :
    ∀ σ : QState,
      (run k o σ es).batches.flatten ++ (run k o σ es).pending
        = σ.batches.flatten ++ σ.pending ++ submittedReqs σ.nextId es := by
  induction es with
  | nil => intro σ; simp [run, submittedReqs]
  | cons e es ih =>
      intro σ
      rw [run_cons, ih]
      cases e with
      | submit u q =>
          rw [step_flatten_pending k o σ (.submit u q), step_nextId k o σ (.submit u q)]
          simp [submittedReqs, List.append_assoc]
      | runBatch =>
          rw [step_flatten_pending k o σ .runBatch, step_nextId k o σ .runBatch]
          simp [submittedReqs]
      | finish =>
          rw [step_flatten_pending k o σ .finish, step_nextId k o σ .finish]
          simp [submittedReqs]

/-- Invariant of a queue state: ids along dispatched-then-pending requests
are strictly increasing (so no request ever occurs twice), all below the
ghost counter, and the settlement history is exactly one settlement per
dispatched request, keyed by its id, valued by its own downstream outcome. -/
def Inv (o : Oracle) (σ : QState) : Prop :=
  (σ.batches.flatten ++ σ.pending).Pairwise (fun a b => a.id < b.id) ∧
  (∀ r ∈ σ.batches.flatten ++ σ.pending, r.id < σ.nextId) ∧
  σ.settled = σ.batches.flatten.map (fun r => (r.id, settleOne o r))

theorem inv_init (o : Oracle) : Inv o initState := by
  refine ⟨?_, ?_, ?_⟩ <;> simp [initState]

theorem inv_step (k : Nat) (o : Oracle) (σ : QState) (e : Event)
    (h : Inv o σ) : Inv o (step k o σ e) := by
  obtain ⟨hpw, hlt, hset⟩ := h
  cases e with
  | submit u q =>
      refine ⟨?_, ?_, ?_⟩
      · rw [show (step k o σ (.submit u q)) = analyzeCrypto σ u q from rfl,
          analyzeCrypto_batches, analyzeCrypto_pending, ← List.append_assoc]
        rw [List.pairwise_append]
        refine ⟨hpw, by simp, ?_⟩
        intro a ha b hb
        simp only [List.mem_singleton] at hb
        subst hb
        exact hlt a ha
      · rw [show (step k o σ (.submit u q)) = analyzeCrypto σ u q from rfl,
          analyzeCrypto_batches, analyzeCrypto_pending, analyzeCrypto_nextId,
          ← List.append_assoc]
        intro r hr
        rcases List.mem_append.mp hr with hr | hr
        · exact Nat.lt_succ_of_lt (hlt r hr)
        · simp only [List.mem_singleton] at hr
          subst hr
          exact Nat.lt_succ_self _
      · rw [show (step k o σ (.submit u q)) = analyzeCrypto σ u q from rfl,
          analyzeCrypto_batches, analyzeCrypto_settled]
        exact hset
  | runBatch =>
      simp only [step]
      split
      · refine ⟨?_, ?_, ?_⟩
        · simpa [List.flatten_append, List.append_assoc, List.take_append_drop]
            using hpw
        · simpa [List.flatten_append, List.append_assoc, List.take_append_drop]
            using hlt
        · simp only [List.flatten_append, List.flatten_cons, List.flatten_nil,
            List.append_nil, List.map_append, hset]
      · exact ⟨hpw, hlt, hset⟩
  | finish =>
      simp only [step]
      split
      · exact ⟨hpw, hlt, hset⟩
      · exact ⟨hpw, hlt, hset⟩

theorem inv_run (k : Nat) (o : Oracle) (es : List Event) :
    ∀ σ : QState, Inv o σ → Inv o (run k o σ es) := by
  induction es with
  | nil => intro σ h; exact h
  | cons e es ih =>
      intro σ h
      rw [run_cons]
      exact ih _ (inv_step k o σ e h)

/-- Filtering the settlement record of a duplicate-free request list for one
request's id keeps exactly that request's settlement. -/
theorem filter_settled_of_pairwise (g : Req → Settlement) (r : Req) :
    ∀ l : List Req, l.Pairwise (fun a b => a.id < b.id) → r ∈ l →
      (l.map (fun x => (x.id, g x))).filter (fun p => p.1 == r.id) = [(r.id, g r)] := by
  intro l
  induction l with
  | nil => intro _ hr; cases hr
  | cons a l ih =>
      intro hpw hr
      rw [List.pairwise_cons] at hpw
      obtain ⟨ha, hpl⟩ := hpw
      rcases List.mem_cons.mp hr with rfl | hr
      · simp only [List.map_cons, List.filter_cons, beq_self_eq_true, if_pos]
        have hnil : (l.map (fun x => (x.id, g x))).filter (fun p => p.1 == r.id) = [] := by
          rw [List.filter_eq_nil_iff]
          intro p hp
          obtain ⟨x, hx, rfl⟩ := List.mem_map.mp hp
          have := ha x hx
          simp only [beq_iff_eq]
          omega
        rw [hnil]
      · have hlt : a.id < r.id := ha r hr
        have hne : (a.id == r.id) = false := by
          simp only [beq_eq_false_iff_ne, ne_eq]
          omega
        simp only [List.map_cons, List.filter_cons, hne]
        exact ih hpl hr

/-! Concrete material shared by the witnesses and the scenario claim. -/

/-- A downstream caller that succeeds on every query. -/
def oOk : Oracle := fun q => Except.ok (String.append q "-result")

/-- A downstream caller that fails on query `"b"` and succeeds elsewhere. -/
def oFailB : Oracle := fun q =>
  if q = "b" then Except.error ⟨"boom"⟩ else Except.ok (String.append q "-result")

def reqA : Req := ⟨0, "u", "a"⟩
def reqB : Req := ⟨1, "u", "b"⟩
def reqC : Req := ⟨2, "u", "c"⟩
def reqD : Req := ⟨3, "u", "d"⟩
def reqE : Req := ⟨4, "u", "e"⟩

/-- Five submissions followed by a full drain (three batches of size two
at most) and the loop exit. -/
def evFive : List Event :=
  [.submit "u" "a", .submit "u" "b", .submit "u" "c", .submit "u" "d", .submit "u" "e",
   .runBatch, .runBatch, .runBatch, .finish]

/-- C1: for every finite sequence of submit (`analyzeCrypto`) calls, once
the queue has drained (`pending` empty), the requests dispatched to the
Downstream Caller are exactly the submitted ones, in submission order,
each exactly once — strictly increasing ids along the dispatch history
show no request is ever dispatched twice (never re-inserted into
`requestQueue` after its batch is spliced off) and the equality with the
submission list shows none is lost. -/
theorem dispatched_eq_submitted (k : Nat) (o : Oracle) (es : List Event)
    (hdone : (run k o initState es).pending = []) :
    (run k o initState es).batches.flatten = submittedReqs 0 es ∧
    (run k o initState es).batches.flatten.Pairwise (fun a b => a.id < b.id) := by
  have hcons := run_flatten_pending k o es initState
  rw [show initState.batches = [] from rfl, show initState.pending = [] from rfl,
    show initState.nextId = 0 from rfl] at hcons
  simp only [List.flatten_nil, List.nil_append] at hcons
  constructor
  · rw [hdone, List.append_nil] at hcons
    exact hcons
  · have hinv := inv_run k o es initState (inv_init o)
    have hpw := hinv.1
    rw [hdone, List.append_nil] at hpw
    exact hpw

/-- Witness for C1 at a concrete five-submission trace. -/
theorem dispatched_eq_submitted_witness :
    (run 2 oOk initState evFive).batches.flatten = submittedReqs 0 evFive ∧
    (run 2 oOk initState evFive).batches.flatten.Pairwise (fun a b => a.id < b.id) :=
  dispatched_eq_submitted 2 oOk evFive (by decide)

/-- C2: every dispatched request is settled exactly once, keyed by its own
settlement handle: the settlement record holds exactly one entry for the
request's id, and its value is `fulfilled` with the Downstream Caller's
result for that request's query when the call returns ok, and `rejected`
with the error when it throws. -/
theorem settled_exactly_once (k : Nat) (o : Oracle) (es : List Event) (r : Req)
    (hr : r ∈ (run k o initState es).batches.flatten) :
    (run k o initState es).settled.filter (fun p => p.1 == r.id)
        = [(r.id, settleOne o r)] ∧
    (∀ v, o r.query = .ok v → settleOne o r = .fulfilled v) ∧
    (∀ e, o r.query = .error e → settleOne o r = .rejected e) := by
  have hinv := inv_run k o es initState (inv_init o)
  refine ⟨?_, ?_, ?_⟩
  · rw [hinv.2.2]
    exact filter_settled_of_pairwise (settleOne o) r _
      (List.pairwise_append.mp hinv.1).1 hr
  · intro v h
    simp [settleOne, h]
  · intro e h
    simp [settleOne, h]

/-- Witness for C2: request `b` in the concrete trace, under the oracle
that fails exactly on query `"b"`. -/
theorem settled_exactly_once_witness :
    (run 2 oFailB initState evFive).settled.filter (fun p => p.1 == reqB.id)
        = [(reqB.id, settleOne oFailB reqB)] ∧
    (∀ v, oFailB reqB.query = .ok v → settleOne oFailB reqB = .fulfilled v) ∧
    (∀ e, oFailB reqB.query = .error e → settleOne oFailB reqB = .rejected e) :=
  settled_exactly_once 2 oFailB evFive reqB (by decide)

/-- The scheduling part of one step — pending queue, processing flag,
dispatched batches, id counter — does not depend on the downstream
oracle's answers; only the settlement record does. -/
theorem step_oracle_core (k : Nat) (o o' : Oracle) (σ τ : QState) (e : Event)
    (h1 : σ.pending = τ.pending) (h2 : σ.processing = τ.processing)
    (h3 : σ.batches = τ.batches) (h4 : σ.nextId = τ.nextId) :
    (step k o σ e).pending = (step k o' τ e).pending ∧
    (step k o σ e).processing = (step k o' τ e).processing ∧
    (step k o σ e).batches = (step k o' τ e).batches ∧
    (step k o σ e).nextId = (step k o' τ e).nextId := by
  cases e with
  | submit u q =>
      refine ⟨?_, ?_, ?_, ?_⟩ <;>
        simp only [step, analyzeCrypto_pending, analyzeCrypto_batches,
          analyzeCrypto_nextId, analyzeCrypto_processing, h1, h2, h3, h4]
  | runBatch =>
      by_cases hc : τ.processing = true ∧ ¬ τ.pending.isEmpty = true
      · refine ⟨?_, ?_, ?_, ?_⟩ <;> simp only [step, h1, h2, h3, h4, if_pos hc]
      · refine ⟨?_, ?_, ?_, ?_⟩ <;> simp only [step, h1, h2, h3, h4, if_neg hc]
  | finish =>
      by_cases hc : τ.processing = true ∧ τ.pending.isEmpty = true
      · refine ⟨?_, ?_, ?_, ?_⟩ <;> simp only [step, h1, h2, h3, h4, if_pos hc]
      · refine ⟨?_, ?_, ?_, ?_⟩ <;> simp only [step, h1, h2, h3, h4, if_neg hc]

theorem run_oracle_core (k : Nat) (o o' : Oracle) (es : List Event) :
    ∀ σ τ : QState,
      σ.pending = τ.pending → σ.processing = τ.processing →
      σ.batches = τ.batches → σ.nextId = τ.nextId →
      (run k o σ es).pending = (run k o' τ es).pending ∧
      (run k o σ es).processing = (run k o' τ es).processing ∧
      (run k o σ es).batches = (run k o' τ es).batches ∧
      (run k o σ es).nextId = (run k o' τ es).nextId := by
  induction es with
  | nil => intro σ τ h1 h2 h3 h4; exact ⟨h1, h2, h3, h4⟩
  | cons e es ih =>
      intro σ τ h1 h2 h3 h4
      rw [run_cons, run_cons]
      obtain ⟨g1, g2, g3, g4⟩ := step_oracle_core k o o' σ τ e h1 h2 h3 h4
      exact ih _ _ g1 g2 g3 g4

/-- C3: a Downstream Caller failure for one item rejects only that item's
future.  The failing item's settlement is `rejected` with exactly the
thrown error; a sibling's settlement depends only on the oracle's answer
to its own query (so one item's failure never rejects a sibling); and the
scheduler's behaviour — which batches are formed, what remains pending,
when the drain cycle runs — is identical under any two oracles, so a
failure is never retried and never halts the batch or the cycle. -/
theorem failure_isolated (k : Nat) (o o' : Oracle) (es : List Event) (r s : Req)
    (hagree : o s.query = o' s.query) :
    (∀ e, o r.query = .error e → settleOne o r = .rejected e) ∧
    settleOne o s = settleOne o' s ∧
    (run k o initState es).batches = (run k o' initState es).batches ∧
    (run k o initState es).pending = (run k o' initState es).pending ∧
    (run k o initState es).processing = (run k o' initState es).processing := by
  obtain ⟨g1, g2, g3, _⟩ :=
    run_oracle_core k o o' es initState initState rfl rfl rfl rfl
  refine ⟨?_, ?_, g3, g1, g2⟩
  · intro e h
    simp [settleOne, h]
  · simp [settleOne, hagree]

/-- Witness for C3: the oracle failing on `"b"` versus the all-ok oracle,
with `b` the failing item and `a` its sibling. -/
theorem failure_isolated_witness :
    (∀ e, oFailB reqB.query = .error e → settleOne oFailB reqB = .rejected e) ∧
    settleOne oFailB reqA = settleOne oOk reqA ∧
    (run 2 oFailB initState evFive).batches = (run 2 oOk initState evFive).batches ∧
    (run 2 oFailB initState evFive).pending = (run 2 oOk initState evFive).pending ∧
    (run 2 oFailB initState evFive).processing
        = (run 2 oOk initState evFive).processing :=
  failure_isolated 2 oFailB oOk evFive reqB reqA rfl

/-- The item handler never propagates an exception: the `catch` clause
turns a downstream throw into a rejection of that item's own future, so
the handler returns normally with exactly the item's settlement. -/
theorem processItem_ok (o : Oracle) (r : Req) :
    processItem o r = .ok (r.id, settleOne o r) := by
  unfold processItem settleOne
  cases h : o r.query with
  | ok v =>
      simp [tryCatch, tryCatchThe, MonadExceptOf.tryCatch, Except.tryCatch, h,
        bind, Except.bind, pure, Except.pure]
  | error e =>
      simp [tryCatch, tryCatchThe, MonadExceptOf.tryCatch, Except.tryCatch, h,
        bind, Except.bind, pure, Except.pure]

/-- `Promise.allSettled` over a batch never propagates an exception and
yields one settlement per item. -/
theorem processBatch_ok (o : Oracle) (batch : List Req) :
    processBatch o batch = .ok (batch.map (fun r => (r.id, settleOne o r))) := by
  induction batch with
  | nil => rfl
  | cons r batch ih =>
      rw [processBatch, processItem_ok, ih]
      rfl

theorem drainTrace_nil (k : Nat) (hk : 0 < k) (arrivals : List (List Req)) :
    drainTrace k hk [] arrivals = [] := by
  rw [drainTrace]

theorem drainTrace_cons (k : Nat) (hk : 0 < k) (p : Req) (ps : List Req)
    (arrivals : List (List Req)) :
    drainTrace k hk (p :: ps) arrivals
      = Act.dispatch ((p :: ps).take k) ::
          (if (p :: ps).drop k ++ arrivals.headD [] = [] then []
           else Act.delay 1000 ::
             drainTrace k hk ((p :: ps).drop k ++ arrivals.headD []) arrivals.tail) := by
  rw [drainTrace]
  by_cases h : (p :: ps).drop k ++ arrivals.headD [] = []
  · rw [if_pos h, if_pos (by simpa [List.isEmpty_iff] using h)]
  · rw [if_neg h, if_neg (by simpa [List.isEmpty_iff] using h)]

theorem processQueueE_nil (k : Nat) (hk : 0 < k) (o : Oracle)
    (arrivals : List (List Req)) :
    processQueueE k hk o [] arrivals = .ok [] := by
  rw [processQueueE]
  rfl

theorem processQueueE_cons (k : Nat) (hk : 0 < k) (o : Oracle) (p : Req) (ps : List Req)
    (arrivals : List (List Req)) :
    processQueueE k hk o (p :: ps) arrivals
      = (processBatch o ((p :: ps).take k)).bind (fun settledHere =>
          if (p :: ps).drop k ++ arrivals.headD [] = [] then .ok settledHere
          else (processQueueE k hk o ((p :: ps).drop k ++ arrivals.headD [])
                  arrivals.tail).bind
                 (fun settledLater => .ok (settledHere ++ settledLater))) := by
  rw [processQueueE]
  cases hb : processBatch o ((p :: ps).take k) with
  | error e => rfl
  | ok v =>
      by_cases h : (p :: ps).drop k ++ arrivals.headD [] = []
      · simp [bind, Except.bind, pure, Except.pure, h]
      · simp only [bind, Except.bind, pure, Except.pure, List.isEmpty_iff, h,
          if_neg, ite_false]

/-- C4: the Batch Scheduler (`processQueue`) never throws outward.  For
every initial queue and every pattern of arrivals and of Downstream Caller
successes and failures, the drain loop run in the exception monad returns
normally (`Except.ok`), with every per-item error captured and routed to
that item's settlement — the result is exactly one settlement per
dispatched request. -/
theorem processQueue_no_throw (k : Nat) (hk : 0 < k) (o : Oracle)
    (pend : List Req) (arrivals : List (List Req)) :
    processQueueE k hk o pend arrivals
      = .ok ((batchesOf (drainTrace k hk pend arrivals)).flatten.map
          (fun r => (r.id, settleOne o r))) := by
  induction pend, arrivals using drainTrace.induct k hk with
  | case1 arr =>
      rw [processQueueE_nil, drainTrace_nil]
      rfl
  | case2 p ps arrivals rest ih =>
      have hrest_def : rest = (p :: ps).drop k ++ arrivals.headD [] := rfl
      rw [hrest_def] at ih
      rw [processQueueE_cons, drainTrace_cons, processBatch_ok]
      by_cases h : (p :: ps).drop k ++ arrivals.headD [] = []
      · simp only [Except.bind]
        rw [if_pos h, if_pos h]
        simp [batchesOf]
      · simp only [Except.bind]
        rw [if_neg h, if_neg h]
        rw [ih (by simpa [List.isEmpty_iff] using h)]
        simp [batchesOf, Except.bind, List.map_append]

/-- Witness for C4 at a concrete queue, arrival pattern and failing
oracle. -/
theorem processQueue_no_throw_witness :
    processQueueE 2 (by decide) oFailB [reqA, reqB, reqC] [[reqD], [reqE]]
      = .ok ((batchesOf (drainTrace 2 (by decide) [reqA, reqB, reqC] [[reqD], [reqE]])).flatten.map
          (fun r => (r.id, settleOne oFailB r))) :=
  processQueue_no_throw 2 (by decide) oFailB [reqA, reqB, reqC] [[reqD], [reqE]]

theorem run_batch_length (k : Nat) (o : Oracle) (es : List Event) :
    ∀ σ : QState, (∀ b ∈ σ.batches, b.length ≤ k) →
      ∀ b ∈ (run k o σ es).batches, b.length ≤ k := by
  induction es with
  | nil => intro σ h; exact h
  | cons e es ih =>
      intro σ h
      rw [run_cons]
      refine ih _ ?_
      cases e with
      | submit u q =>
          rw [show step k o σ (.submit u q) = analyzeCrypto σ u q from rfl,
            analyzeCrypto_batches]
          exact h
      | runBatch =>
          simp only [step]
          split
          · intro b hb
            rcases List.mem_append.mp hb with hb | hb
            · exact h b hb
            · simp only [List.mem_singleton] at hb
              subst hb
              simp
          · exact h
      | finish =>
          simp only [step]
          split
          · exact h
          · exact h

/-- C5: at most `MAX_CONCURRENT` items are ever in flight.  Every batch
dispatched in any run has at most `k` items; a `runBatch` step takes its
batch exactly from the head of `pending` (`splice(0, k)`), whose length is
`min k pending.length` — fewer than `k` only when `pending` holds less —
and settles every item of that batch in the same step, so no item of a
later batch is dispatched while an item of the current batch is
unsettled (the settlement record always covers exactly the dispatch
history). -/
theorem batch_bound (k : Nat) (o : Oracle) (es : List Event) (σ : QState)
    (hproc : σ.processing = true) (hne : ¬ σ.pending.isEmpty = true) :
    (∀ b ∈ (run k o initState es).batches, b.length ≤ k) ∧
    (run k o initState es).settled
        = (run k o initState es).batches.flatten.map (fun r => (r.id, settleOne o r)) ∧
    (step k o σ .runBatch).batches = σ.batches ++ [σ.pending.take k] ∧
    (σ.pending.take k).length = min k σ.pending.length ∧
    (step k o σ .runBatch).settled
        = σ.settled ++ (σ.pending.take k).map (fun r => (r.id, settleOne o r)) := by
  refine ⟨?_, ?_, ?_, ?_, ?_⟩
  · exact run_batch_length k o es initState (by simp [initState])
  · exact (inv_run k o es initState (inv_init o)).2.2
  · simp only [step, if_pos (And.intro hproc hne)]
  · simp
  · simp only [step, if_pos (And.intro hproc hne)]

/-- Witness for C5 at a concrete mid-drain state. -/
theorem batch_bound_witness :
    (∀ b ∈ (run 2 oOk initState evFive).batches, b.length ≤ 2) ∧
    (run 2 oOk initState evFive).settled
        = (run 2 oOk initState evFive).batches.flatten.map
            (fun r => (r.id, settleOne oOk r)) ∧
    (step 2 oOk ⟨[reqA, reqB, reqC], true, [], [], 3⟩ .runBatch).batches
        = [] ++ [[reqA, reqB, reqC].take 2] ∧
    ([reqA, reqB, reqC].take 2).length = min 2 [reqA, reqB, reqC].length ∧
    (step 2 oOk ⟨[reqA, reqB, reqC], true, [], [], 3⟩ .runBatch).settled
        = [] ++ ([reqA, reqB, reqC].take 2).map (fun r => (r.id, settleOne oOk r)) :=
  batch_bound 2 oOk evFive ⟨[reqA, reqB, reqC], true, [], [], 3⟩ rfl (by decide)

theorem submittedReqs_lower :
    ∀ (es : List Event) (s : Nat), ∀ r ∈ submittedReqs s es, s ≤ r.id := by
  intro es
  induction es with
  | nil => intro s r hr; cases hr
  | cons e es ih =>
      intro s r hr
      cases e with
      | submit u q =>
          simp only [submittedReqs] at hr
          rcases List.mem_cons.mp hr with rfl | hr
          · exact Nat.le_refl _
          · exact Nat.le_of_succ_le (ih (s + 1) r hr)
      | runBatch => exact ih s r hr
      | finish => exact ih s r hr

/-- Ids are assigned in submission order: the submission list is strictly
increasing in id, so request `i` submitted before request `j` has
`i.id < j.id`. -/
theorem submittedReqs_pairwise (es : List Event) :
    ∀ s : Nat, (submittedReqs s es).Pairwise (fun a b => a.id < b.id) := by
  induction es with
  | nil => intro s; simp [submittedReqs]
  | cons e es ih =>
      intro s
      cases e with
      | submit u q =>
          simp only [submittedReqs]
          refine List.Pairwise.cons ?_ (ih (s + 1))
          intro b hb
          have := submittedReqs_lower es (s + 1) b hb
          simp only []
          omega
      | runBatch => exact ih s
      | finish => exact ih s

/-- C6: dispatch order is FIFO by submission at batch-boundary
granularity.  Ids are assigned in submission order (the submission list is
strictly increasing in id), and if a request with a smaller id lands in
batch `m` while one with a larger id lands in batch `n`, then `m ≤ n`:
a request submitted earlier is placed in a batch at or before a later
request's batch.  Nothing is claimed about completion order inside a
batch. -/
theorem fifo_batch_order (k : Nat) (o : Oracle) (es : List Event)
    (m n : Nat) (ri rj : Req)
    (hm : m < (run k o initState es).batches.length)
    (hn : n < (run k o initState es).batches.length)
    (hri : ri ∈ (run k o initState es).batches.get ⟨m, hm⟩)
    (hrj : rj ∈ (run k o initState es).batches.get ⟨n, hn⟩)
    (hij : ri.id < rj.id) :
    m ≤ n ∧ (submittedReqs 0 es).Pairwise (fun a b => a.id < b.id) := by
  refine ⟨?_, submittedReqs_pairwise es 0⟩
  have hinv := inv_run k o es initState (inv_init o)
  have hflat := (List.pairwise_append.mp hinv.1).1
  rw [List.pairwise_flatten] at hflat
  by_contra hmn
  push_neg at hmn
  have hlt := List.pairwise_iff_get.mp hflat.2 ⟨n, hn⟩ ⟨m, hm⟩ hmn
  have := hlt rj hrj ri hri
  omega

/-- Witness for C6: in the concrete five-request run with batch size 2,
request `a` (batch 0) versus request `c` (batch 1). -/
theorem fifo_batch_order_witness :
    0 ≤ 1 ∧ (submittedReqs 0 evFive).Pairwise (fun a b => a.id < b.id) :=
  fifo_batch_order 2 oOk evFive 0 1 reqA reqC (by decide) (by decide)
    (by decide) (by decide) (by decide)

/-- C7: lifecycle and mutual exclusion of the `processing` flag.
(1) While the flag is down, scheduler steps are impossible — the state is
completely unchanged by `runBatch` or `finish` — so after a drain cycle
ends the flag stays down until the next `analyzeCrypto` call.
(2) Any `analyzeCrypto` call leaves the flag up: it raises it when the
queue was idle (a drain cycle starts) and leaves it up otherwise.
(3) The flag only ever goes down through the loop-exit step, and only when
the pending queue has been observed empty.
(4) An `analyzeCrypto` call that finds the flag up only appends its
request to `requestQueue` — it changes nothing else, so a concurrent
submit never starts an overlapping drain cycle. -/
theorem processing_flag (k : Nat) (o : Oracle) (σ : QState) (e : Event)
    (u q : String) :
    (σ.processing = false →
        step k o σ .runBatch = σ ∧ step k o σ .finish = σ) ∧
    (step k o σ (.submit u q)).processing = true ∧
    (σ.processing = true → (step k o σ e).processing = false →
        e = .finish ∧ σ.pending = []) ∧
    (σ.processing = true →
        step k o σ (.submit u q)
          = { σ with pending := σ.pending ++ [⟨σ.nextId, u, q⟩],
                     nextId := σ.nextId + 1 }) := by
  refine ⟨?_, ?_, ?_, ?_⟩
  · intro hp
    constructor
    · simp only [step]
      rw [if_neg]
      simp [hp]
    · simp only [step]
      rw [if_neg]
      simp [hp]
  · exact analyzeCrypto_processing σ u q
  · intro hp hdown
    cases e with
    | submit u' q' =>
        rw [show step k o σ (.submit u' q') = analyzeCrypto σ u' q' from rfl,
          analyzeCrypto_processing] at hdown
        cases hdown
    | runBatch =>
        exfalso
        revert hdown
        simp only [step]
        split
        · simp [hp]
        · simp [hp]
    | finish =>
        refine ⟨rfl, ?_⟩
        revert hdown
        simp only [step]
        split
        · intro _
          exact List.isEmpty_iff.mp (by assumption : _ ∧ _).2
        · simp [hp]
  · intro hp
    simp only [step, analyzeCrypto]
    rw [if_pos]
    exact hp

/-- Witness for C7 at a concrete busy state. -/
theorem processing_flag_witness :
    ((⟨[reqA], true, [], [], 1⟩ : QState).processing = false →
        step 2 oOk ⟨[reqA], true, [], [], 1⟩ .runBatch = ⟨[reqA], true, [], [], 1⟩ ∧
        step 2 oOk ⟨[reqA], true, [], [], 1⟩ .finish = ⟨[reqA], true, [], [], 1⟩) ∧
    (step 2 oOk ⟨[reqA], true, [], [], 1⟩ (.submit "u" "b")).processing = true ∧
    ((⟨[reqA], true, [], [], 1⟩ : QState).processing = true →
        (step 2 oOk ⟨[reqA], true, [], [], 1⟩ .runBatch).processing = false →
        Event.runBatch = .finish ∧ (⟨[reqA], true, [], [], 1⟩ : QState).pending = []) ∧
    ((⟨[reqA], true, [], [], 1⟩ : QState).processing = true →
        step 2 oOk ⟨[reqA], true, [], [], 1⟩ (.submit "u" "b")
          = ⟨[reqA, ⟨1, "u", "b"⟩], true, [], [], 2⟩) :=
  processing_flag 2 oOk ⟨[reqA], true, [], [], 1⟩ .runBatch "u" "b"

theorem batchesOf_cons_dispatch (b : List Req) (t : List Act) :
    batchesOf (Act.dispatch b :: t) = b :: batchesOf t := rfl

theorem batchesOf_cons_delay (m : Nat) (t : List Act) :
    batchesOf (Act.delay m :: t) = batchesOf t := rfl

theorem batchesOf_drainTrace_ne_nil (k : Nat) (hk : 0 < k)
    (pend : List Req) (arrivals : List (List Req)) (h : pend ≠ []) :
    batchesOf (drainTrace k hk pend arrivals) ≠ [] := by
  cases pend with
  | nil => exact absurd rfl h
  | cons r rs =>
      rw [drainTrace_cons, batchesOf_cons_dispatch]
      exact List.cons_ne_nil _ _

/-- C8: batches execute strictly sequentially, and the pacing delay sits
exactly between consecutive batches.  The action trace of a drain cycle is
the dispatched batches interspersed with single fixed 1000 ms delays: a
delay occurs after a batch has fully settled exactly when the queue is
still non-empty (so another batch follows), and no delay follows the final
batch. -/
theorem pacing_delay_structure (k : Nat) (hk : 0 < k) (pend : List Req)
    (arrivals : List (List Req)) :
    drainTrace k hk pend arrivals
      = List.intersperse (Act.delay 1000)
          ((batchesOf (drainTrace k hk pend arrivals)).map Act.dispatch) := by
  induction pend, arrivals using drainTrace.induct k hk with
  | case1 arr =>
      rw [drainTrace_nil]
      rfl
  | case2 p ps arrivals rest ih =>
      have hrest_def : rest = (p :: ps).drop k ++ arrivals.headD [] := rfl
      rw [hrest_def] at ih
      rw [drainTrace_cons]
      by_cases h : (p :: ps).drop k ++ arrivals.headD [] = []
      · rw [if_pos h]
        rfl
      · rw [if_neg h]
        have ih2 := ih (by simpa [List.isEmpty_iff] using h)
        have hne := batchesOf_drainTrace_ne_nil k hk
          ((p :: ps).drop k ++ arrivals.headD []) arrivals.tail h
        obtain ⟨c, cs, hceq⟩ := List.exists_cons_of_ne_nil hne
        rw [batchesOf_cons_dispatch, batchesOf_cons_delay, hceq, List.map_cons,
          List.map_cons, List.intersperse_cons_cons]
        rw [ih2, hceq, List.map_cons]

/-- Witness for C8 at the concrete five-request queue with batch size 2. -/
theorem pacing_delay_structure_witness :
    drainTrace 2 (by decide) [reqA, reqB, reqC, reqD, reqE] []
      = List.intersperse (Act.delay 1000)
          ((batchesOf (drainTrace 2 (by decide) [reqA, reqB, reqC, reqD, reqE] [])).map
            Act.dispatch) :=
  pacing_delay_structure 2 (by decide) [reqA, reqB, reqC, reqD, reqE] []

/-- The full synchronous execution of one `analyzeCrypto` call, including
the synchronous prefix of `processQueue` it invokes.  When a drain is
already running (`this.processing` true), `processQueue` returns at its
first line and the call only appends.  When the queue is idle, the call
runs lines 166-180 before its first `await`: push the request, set
`this.processing = true`, pass the `while` test, and splice off and
dispatch the first batch — which therefore contains only the requests
present at that instant. -/
def analyzeCryptoSync (k : Nat) (o : Oracle) (σ : QState) (userId query : String) :
    QState :=
  if σ.processing then analyzeCrypto σ userId query
  else step k o (analyzeCrypto σ userId query) .runBatch

/-- The five-submission scenario under the interleaving the JavaScript
event loop actually forces: each submit runs its synchronous prefix to
completion before the next submit can run, and the remaining loop
iterations resume only at the `await` points, after all five submits. -/
def scenarioReal (k : Nat) (o : Oracle) : QState :=
  let σ1 := analyzeCryptoSync k o initState "u" "a"
  let σ2 := analyzeCryptoSync k o σ1 "u" "b"
  let σ3 := analyzeCryptoSync k o σ2 "u" "c"
  let σ4 := analyzeCryptoSync k o σ3 "u" "d"
  let σ5 := analyzeCryptoSync k o σ4 "u" "e"
  run k o σ5 [.runBatch, .runBatch, .finish]

/-- C9 counterexample: with batch size 2 and five requests `a..e`
submitted from an idle queue, the forced interleaving yields the batches
`[a]`, `[b,c]`, `[d,e]` — not the claimed `[a,b]`, `[c,d]`, `[e]`.  The
first submit from idle splices its batch synchronously, while only its own
request is in the queue, so the first batch is always a singleton. -/
theorem scenario_claimed_batching_false :
    (scenarioReal 2 oOk).batches = [[reqA], [reqB, reqC], [reqD, reqE]] ∧
    ¬ (scenarioReal 2 oOk).batches = [[reqA, reqB], [reqC, reqD], [reqE]] := by
  decide

/-- C9 (amended): `MAX_CONCURRENT` is the fixed constant 5 in the source;
with batch size 2 and five requests `a, b, c, d, e` all succeeding
downstream, the first submit from idle synchronously dispatches the
singleton batch `[a]`, the other four requests arrive while that batch is
awaited, and the drain continues with `[b,c]` then `[d,e]` — three batches
strictly in that order, one 1000 ms pacing delay between each consecutive
pair and none after the last, all five futures eventually fulfilled with
their downstream results, the queue drained and the scheduler idle. -/
theorem scenario_five_requests_real :
    MAX_CONCURRENT = 5 ∧
    drainTrace 2 (by decide) [reqA] [[reqB, reqC, reqD, reqE]]
      = [Act.dispatch [reqA], Act.delay 1000,
         Act.dispatch [reqB, reqC], Act.delay 1000,
         Act.dispatch [reqD, reqE]] ∧
    (scenarioReal 2 oOk).batches = [[reqA], [reqB, reqC], [reqD, reqE]] ∧
    (scenarioReal 2 oOk).settled
      = [(0, .fulfilled "a-result"), (1, .fulfilled "b-result"),
         (2, .fulfilled "c-result"), (3, .fulfilled "d-result"),
         (4, .fulfilled "e-result")] ∧
    (scenarioReal 2 oOk).pending = [] ∧
    (scenarioReal 2 oOk).processing = false := by
  refine ⟨rfl, ?_, by decide, ?_, by decide, by decide⟩
  · simp [drainTrace, reqA, reqB, reqC, reqD, reqE]
  · decide

theorem drainSteps_complete (k : Nat) (hk : 0 < k) :
    ∀ (n : Nat) (pend : List Req), pend.length ≤ n →
      (drainSteps k n pend).2 = [] ∧
      (drainSteps k n pend).1.length ≤ pend.length ∧
      (∀ b ∈ (drainSteps k n pend).1, b ≠ []) ∧
      (drainSteps k n pend).1 = batchesOf (drainTrace k hk pend []) := by
  intro n
  induction n with
  | zero =>
      intro pend hlen
      have hnil : pend = [] := List.eq_nil_of_length_eq_zero (Nat.le_zero.mp hlen)
      subst hnil
      refine ⟨rfl, by simp [drainSteps], by simp [drainSteps], ?_⟩
      rw [drainTrace_nil]
      rfl
  | succ n ih =>
      intro pend hlen
      cases pend with
      | nil =>
          refine ⟨rfl, by simp [drainSteps], by simp [drainSteps], ?_⟩
          rw [drainTrace_nil]
          rfl
      | cons p ps =>
          have hdrop : ((p :: ps).drop k).length ≤ n := by
            simp only [List.length_drop, List.length_cons]
            simp only [List.length_cons] at hlen
            omega
          obtain ⟨h1, h2, h3, h4⟩ := ih ((p :: ps).drop k) hdrop
          refine ⟨?_, ?_, ?_, ?_⟩
          · simpa [drainSteps] using h1
          · simp only [drainSteps, List.length_cons]
            simp only [List.length_drop, List.length_cons] at h2
            omega
          · intro b hb
            simp only [drainSteps] at hb
            rcases List.mem_cons.mp hb with rfl | hb
            · simp only [ne_eq, List.take_eq_nil_iff]
              intro hc
              rcases hc with hc | hc
              · exact absurd hc (Nat.pos_iff_ne_zero.mp hk)
              · exact List.cons_ne_nil _ _ hc
            · exact h3 b hb
          · rw [drainTrace_cons]
            simp only [List.headD, List.append_nil]
            by_cases hr : (p :: ps).drop k = []
            · rw [if_pos hr, batchesOf_cons_dispatch]
              simp only [drainSteps]
              rw [h4, hr, drainTrace_nil]
            · rw [if_neg hr, batchesOf_cons_dispatch, batchesOf_cons_delay]
              simp only [drainSteps]
              rw [h4]
              rfl

/-- C10: the drain loop of `processQueue` terminates.  Starting from any
finite queue with no arrivals, running the loop for at most `pend.length`
iterations already empties the queue (each iteration splices off a
non-empty batch, so at least one request is removed per iteration), the
number of dispatched batches is at most `pend.length`, and the batches
produced in those finitely many iterations are exactly the drain cycle's
batches. -/
theorem drain_terminates (k : Nat) (pend : List Req) (hk : 0 < k) :
    (drainSteps k pend.length pend).2 = [] ∧
    (drainSteps k pend.length pend).1.length ≤ pend.length ∧
    (∀ b ∈ (drainSteps k pend.length pend).1, b ≠ []) ∧
    (drainSteps k pend.length pend).1 = batchesOf (drainTrace k hk pend []) :=
  drainSteps_complete k hk pend.length pend (Nat.le_refl _)

/-- Witness for C10 at the concrete five-request queue with batch size 2. -/
theorem drain_terminates_witness :
    (drainSteps 2 ([reqA, reqB, reqC, reqD, reqE].length) [reqA, reqB, reqC, reqD, reqE]).2 = [] ∧
    (drainSteps 2 ([reqA, reqB, reqC, reqD, reqE].length) [reqA, reqB, reqC, reqD, reqE]).1.length
        ≤ [reqA, reqB, reqC, reqD, reqE].length ∧
    (∀ b ∈ (drainSteps 2 ([reqA, reqB, reqC, reqD, reqE].length) [reqA, reqB, reqC, reqD, reqE]).1,
        b ≠ []) ∧
    (drainSteps 2 ([reqA, reqB, reqC, reqD, reqE].length) [reqA, reqB, reqC, reqD, reqE]).1
        = batchesOf (drainTrace 2 (by decide) [reqA, reqB, reqC, reqD, reqE] []) :=
  drain_terminates 2 [reqA, reqB, reqC, reqD, reqE] (by decide)

end BoringTech
